import Mathlib

/-! Verification of the lineindex crate: a shallow embedding of src/lib.rs.

Texts are `List Char` (Rust `str` iterated by `char_indices`), byte offsets are
computed with `Char.utf8Size`, and fallible or panicking operations return
`Option`, with `none` standing for a panic where the source can panic. -/

namespace Lineindex

/-- Embeds the source struct `Index`: the byte index and character index of one
character in the string. -/
structure Index where
  byte : Nat
  character : Nat
deriving DecidableEq

/-- Embeds the source struct `Range`: an inclusive span between two dual
indices. The source field named `end` is called `stop` here because `end` is a
Lean keyword. -/
structure Range where
  start : Index
  stop : Index
deriving DecidableEq

/-- Total number of UTF-8 bytes of a character list; embeds Rust `str::len`. -/
def byteLen (s : List Char) : Nat := (s.map Char.utf8Size).sum

/-- Embeds the loop body of `IndexedString::make_lines`: scans the remaining
characters, carrying the current byte offset `b`, the character ordinal `c`,
the pending line `start`, and the flag `next` that requests resetting `start`
at the next character. The parameter `endB` embeds the precomputed value
`s.len() - 1` (a byte count, which the source compares against the character
ordinal `c_i`). -/
def makeLinesLoop (endB : Nat) : List Char → Nat → Nat → Index → Bool → List Range
  | [], _, _, _, _ => []
  | ch :: rest, b, c, start, next =>
    let start' := if next then Index.mk b c else start
    if ch = '\n' ∨ c = endB then
      Range.mk start' (Index.mk b c) ::
        makeLinesLoop endB rest (b + ch.utf8Size) (c + 1) start' true
    else
      makeLinesLoop endB rest (b + ch.utf8Size) (c + 1) start' false

/-- Embeds `IndexedString::make_lines`. -/
def make_lines (s : List Char) : List Range :=
  if s.isEmpty then [] else makeLinesLoop (byteLen s - 1) s 0 0 (Index.mk 0 0) false

/-- Embeds `std::borrow::Cow` over `str`: a borrowed or an owned source text. -/
inductive Cow where
  | borrowed : List Char → Cow
  | owned : List Char → Cow
deriving DecidableEq

/-- Read access through the `Cow`, as deref does in the source. -/
def Cow.asStr : Cow → List Char
  | Cow.borrowed s => s
  | Cow.owned s => s

/-- Embeds the struct `IndexedString`. -/
structure IndexedString where
  source : Cow
  lines : List Range
deriving DecidableEq

/-- Embeds `impl From<&'a str> for IndexedString`. -/
def fromStr (s : List Char) : IndexedString :=
  IndexedString.mk (Cow.borrowed s) (make_lines s)

/-- Embeds `impl From<String> for IndexedString`. -/
def fromString (s : List Char) : IndexedString :=
  IndexedString.mk (Cow.owned s) (make_lines s)

/-- Embeds `IndexedString::lines`, the line count (named `numLines` because the
field of the struct is already called `lines`). -/
def IndexedString.numLines (x : IndexedString) : Nat := x.lines.length

/-- Embeds `IndexedString::as_str`. -/
def IndexedString.as_str (x : IndexedString) : List Char := x.source.asStr

/-- Embeds `Range::bytes`: the inclusive byte range, as a pair. -/
def Range.bytes (r : Range) : Nat × Nat := (r.start.byte, r.stop.byte)

/-- Embeds `Range::characters`: the inclusive character range, as a pair. -/
def Range.characters (r : Range) : Nat × Nat := (r.start.character, r.stop.character)

/-- Embeds `IndexedString::inner_line_for`. The outer `Option` models a panic:
the source calls `self.lines.get(mid_index).unwrap()`, which panics when
`mid_index` is out of bounds; that outcome is the value `none`. The value
`some none` embeds returning `None`, and `some (some i)` embeds `Some(i)`.
The extra `fuel` argument only bounds the recursion depth: the source
recursion strictly decreases the measure `end - start`, so any fuel larger
than that measure is never exhausted, and callers pass such a fuel. -/
def inner_line_for (lines : List Range) (byte : Bool) (index : Nat) :
    Nat → Nat → Nat → Option (Option Nat)
  | _, _, 0 => none
  | start, end_, fuel + 1 =>
    let mid_index := start + (end_ - start) / 2
    match lines[mid_index]? with
    | none => none
    | some mid_range =>
      let lo := if byte then (Range.bytes mid_range).1 else (Range.characters mid_range).1
      let hi := if byte then (Range.bytes mid_range).2 else (Range.characters mid_range).2
      if lo ≤ index ∧ index ≤ hi then some (some mid_index)
      else if mid_index > start ∧ index < lo then
        inner_line_for lines byte index start (mid_index - 1) fuel
      else if mid_index < end_ ∧ index > hi then
        inner_line_for lines byte index (mid_index + 1) end_ fuel
      else some none

/-- Embeds `IndexedString::line_for`: the entry of the bisection, over the whole
index. The fuel `lines.len() + 1` exceeds the initial measure `end - start`. -/
def line_for (x : IndexedString) (byte : Bool) (index : Nat) : Option (Option Nat) :=
  inner_line_for x.lines byte index 0 x.lines.length (x.lines.length + 1)

/-- Embeds `IndexedString::line_for_byte`. -/
def line_for_byte (x : IndexedString) (byte : Nat) : Option (Option Nat) :=
  line_for x true byte

/-- Embeds `IndexedString::line_for_character`. -/
def line_for_character (x : IndexedString) (character : Nat) : Option (Option Nat) :=
  line_for x false character

/-- Embeds `IndexedString::byte_range_for_line`. -/
def byte_range_for_line (x : IndexedString) (line : Nat) : Option (Nat × Nat) :=
  (x.lines[line]?).map Range.bytes

/-- Embeds `IndexedString::character_range_for_line`. -/
def character_range_for_line (x : IndexedString) (line : Nat) : Option (Nat × Nat) :=
  (x.lines[line]?).map Range.characters

/-- Drops `n` leading UTF-8 bytes from a character list; `none` models the
panic of Rust string slicing when `n` is not a character boundary or runs past
the end of the text. -/
def dropBytes : List Char → Nat → Option (List Char)
  | s, 0 => some s
  | [], _ + 1 => none
  | ch :: rest, n + 1 =>
    if ch.utf8Size ≤ n + 1 then dropBytes rest (n + 1 - ch.utf8Size) else none

/-- Takes `n` leading UTF-8 bytes from a character list; `none` models the
slicing panic off a character boundary or past the end of the text. -/
def takeBytes : List Char → Nat → Option (List Char)
  | _, 0 => some []
  | [], _ + 1 => none
  | ch :: rest, n + 1 =>
    if ch.utf8Size ≤ n + 1 then
      (takeBytes rest (n + 1 - ch.utf8Size)).map (fun t => ch :: t)
    else none

/-- Embeds indexing a `str` by the half-open byte range `a..b`; the source
slices by the inclusive range `start..=end`, which is `a..b` with
`b = end + 1`. -/
def sliceBytes (s : List Char) (a b : Nat) : Option (List Char) :=
  if a ≤ b then (dropBytes s a).bind (fun t => takeBytes t (b - a)) else none

/-- Embeds `IndexedString::line_str`. The outer `Option` models a slicing
panic; `some none` embeds returning `None` for an out-of-range line. -/
def line_str (x : IndexedString) (line : Nat) : Option (Option (List Char)) :=
  match byte_range_for_line x line with
  | some ab => (sliceBytes x.as_str ab.1 (ab.2 + 1)).map (fun t => some t)
  | none => some none

/-- Concatenation of the texts of all indexed lines, in order, used to state
the partition property; a line whose retrieval yields no text contributes
nothing. -/
def linesConcat (x : IndexedString) : List Char :=
  (List.range x.numLines).foldr
    (fun i acc => (((line_str x i).getD none).getD []) ++ acc) []

/-- Contiguity of two consecutive line spans in both coordinate systems: the
second starts one byte and one character after the first ends (the terminating
code point of a non-final line is the one-byte newline). -/
def contig (r1 r2 : Range) : Prop :=
  r2.start.byte = r1.stop.byte + 1 ∧ r2.start.character = r1.stop.character + 1

/-- Strict ordering of two line spans in both coordinate systems. -/
def spanLT (r1 r2 : Range) : Prop :=
  r1.stop.byte < r2.start.byte ∧ r1.stop.character < r2.start.character

/-- Byte offset `n` is a character boundary of the text `s`. -/
def IsBoundary (s : List Char) (n : Nat) : Prop :=
  ∃ k, byteLen (s.take k) = n

/-- One-step unfolding equation of the scan loop on a non-empty suffix. -/
theorem makeLinesLoop_cons (endB : Nat) (ch : Char) (rest : List Char) (b c : Nat)
    (start : Index) (next : Bool) :
    makeLinesLoop endB (ch :: rest) b c start next =
      if ch = '\n' ∨ c = endB then
        Range.mk (if next then Index.mk b c else start) (Index.mk b c) ::
          makeLinesLoop endB rest (b + ch.utf8Size) (c + 1)
            (if next then Index.mk b c else start) true
      else
        makeLinesLoop endB rest (b + ch.utf8Size) (c + 1)
          (if next then Index.mk b c else start) false := rfl

theorem byteLen_nil : byteLen [] = 0 := rfl

theorem byteLen_cons (ch : Char) (s : List Char) :
    byteLen (ch :: s) = ch.utf8Size + byteLen s := by
  simp [byteLen]

theorem byteLen_append (a b : List Char) : byteLen (a ++ b) = byteLen a + byteLen b := by
  simp [byteLen]

theorem length_le_byteLen (s : List Char) : s.length ≤ byteLen s := by
  induction s with
  | nil => simp [byteLen]
  | cons ch rest ih =>
    have h1 : 0 < ch.utf8Size := Char.utf8Size_pos ch
    simp only [List.length_cons, byteLen_cons]
    omega

theorem byteLen_eq_zero (s : List Char) (h : byteLen s = 0) : s = [] := by
  cases s with
  | nil => rfl
  | cons ch rest =>
    have h1 : 0 < ch.utf8Size := Char.utf8Size_pos ch
    rw [byteLen_cons] at h
    omega

theorem drop_succ_of_drop_cons (s : List Char) (k : Nat) (ch : Char) (rest : List Char)
    (h : s.drop k = ch :: rest) : s.drop (k + 1) = rest := by
  have h2 : (s.drop k).drop 1 = s.drop (k + 1) := by
    rw [List.drop_drop]
  rw [← h2, h, List.drop_one, List.tail_cons]

theorem byteLen_take_succ (s : List Char) (k : Nat) (ch : Char) (rest : List Char)
    (h : s.drop k = ch :: rest) :
    byteLen (s.take (k + 1)) = byteLen (s.take k) + ch.utf8Size := by
  have hk : s[k]? = some ch := by
    rw [← List.head?_drop, h, List.head?_cons]
  rw [List.take_succ, hk]
  simp [byteLen_append, byteLen_cons, byteLen_nil]

theorem lt_length_of_drop_cons (s : List Char) (k : Nat) (ch : Char) (rest : List Char)
    (h : s.drop k = ch :: rest) : k < s.length := by
  by_contra hk
  rw [List.drop_eq_nil_of_le (by omega)] at h
  exact List.noConfusion h

/-- When the scan's end-of-text test `c_i == end` fires, the byte length of the
whole text forces the current character to be the last one and one byte wide:
the character ordinal can only reach `s.len() - 1` when every character seen so
far is a single byte and nothing follows. -/
theorem close_at_end (s : List Char) (k : Nat) (ch : Char) (rest : List Char)
    (h : s.drop k = ch :: rest) (hk : k = byteLen s - 1) :
    ch.utf8Size = 1 ∧ rest = [] := by
  have hlen : k < s.length := lt_length_of_drop_cons s k ch rest h
  have hsplit : s.take k ++ s.drop k = s := List.take_append_drop k s
  have hbl : byteLen s = byteLen (s.take k) + (ch.utf8Size + byteLen rest) := by
    conv_lhs => rw [← hsplit]
    rw [byteLen_append, h, byteLen_cons]
  have htk : (s.take k).length = k := by
    rw [List.length_take]
    omega
  have h1 : k ≤ byteLen (s.take k) := by
    have h2 := length_le_byteLen (s.take k)
    omega
  have hpos : 0 < ch.utf8Size := Char.utf8Size_pos ch
  have hrest0 : byteLen rest = 0 ∧ ch.utf8Size = 1 := by
    constructor <;> omega
  exact ⟨hrest0.2, byteLen_eq_zero rest hrest0.1⟩

/-- The first span produced by the scan loop with `next` unset starts at the
carried pending start. -/
theorem headStart_false (endB : Nat) :
    ∀ (rest : List Char) (b c : Nat) (start : Index) (r : Range) (rs : List Range),
    makeLinesLoop endB rest b c start false = r :: rs → r.start = start := by
  intro rest
  induction rest with
  | nil => intro b c start r rs h; exact List.noConfusion h
  | cons ch rest' ih =>
    intro b c start r rs h
    simp only [makeLinesLoop, if_neg Bool.false_ne_true] at h
    by_cases hcl : ch = '\n' ∨ c = endB
    · rw [if_pos hcl] at h
      have := (List.cons.injEq _ _ _ _).mp h
      rw [← this.1]
    · rw [if_neg hcl] at h
      exact ih _ _ _ _ _ h

/-- The first span produced by the scan loop with `next` set starts at the
current position: the loop resets the pending start there first. -/
theorem headStart_true (endB : Nat) (rest : List Char) (b c : Nat) (start : Index)
    (r : Range) (rs : List Range) :
    makeLinesLoop endB rest b c start true = r :: rs → r.start = Index.mk b c := by
  cases rest with
  | nil => intro h; exact List.noConfusion h
  | cons ch rest' =>
    intro h
    simp only [makeLinesLoop, if_pos rfl] at h
    by_cases hcl : ch = '\n' ∨ c = endB
    · rw [if_pos hcl] at h
      have := (List.cons.injEq _ _ _ _).mp h
      rw [← this.1]
      simp
    · rw [if_neg hcl] at h
      have := headStart_false endB _ _ _ _ _ _ h
      rw [this]
      simp

/-- Core contiguity invariant of the scan: successive spans produced by the
loop abut, one byte and one character apart, because every span that is
followed by another one is terminated by a one-byte newline. -/
theorem chain_loop (s : List Char) :
    ∀ (rest : List Char) (k : Nat) (start : Index) (next : Bool),
    s.drop k = rest →
    List.Chain' contig (makeLinesLoop (byteLen s - 1) rest (byteLen (s.take k)) k start next) := by
  intro rest
  induction rest with
  | nil => intro k start next hdrop; simp [makeLinesLoop]
  | cons ch rest' ih =>
    intro k start next hdrop
    have hdrop' : s.drop (k + 1) = rest' := drop_succ_of_drop_cons s k ch rest' hdrop
    have hb' : byteLen (s.take (k + 1)) = byteLen (s.take k) + ch.utf8Size :=
      byteLen_take_succ s k ch rest' hdrop
    simp only [makeLinesLoop]
    by_cases hcl : ch = '\n' ∨ k = byteLen s - 1
    · rw [if_pos hcl, ← hb']
      apply List.chain'_cons'.mpr
      refine ⟨?_, ih (k + 1) _ true hdrop'⟩
      intro r2 hr2
      cases htail : makeLinesLoop (byteLen s - 1) rest'
          (byteLen (s.take (k + 1))) (k + 1)
          (if next = true then Index.mk (byteLen (s.take k)) k else start) true with
      | nil => rw [htail] at hr2; simp at hr2
      | cons r2' ts =>
        rw [htail] at hr2
        simp only [List.head?_cons, Option.mem_def, Option.some.injEq] at hr2
        subst hr2
        have hst := headStart_true (byteLen s - 1) rest' _ _ _ r2' ts htail
        have hsize : ch.utf8Size = 1 := by
          rcases hcl with hnl | hend
          · subst hnl; decide
          · obtain ⟨h1, h2⟩ := close_at_end s k ch rest' hdrop hend
            subst h2
            simp [makeLinesLoop] at htail
        refine ⟨?_, ?_⟩
        · rw [hst]
          simp only [Range.stop, Range.start, Index.byte]
          omega
        · rw [hst]
    · rw [if_neg hcl, ← hb']
      exact ih (k + 1) _ false hdrop'

/-- Every span produced by the scan loop is well formed: its start is at or
before its end in both coordinate systems. -/
theorem within_loop (s : List Char) :
    ∀ (rest : List Char) (k : Nat) (start : Index) (next : Bool),
    s.drop k = rest →
    (next = false → start.byte ≤ byteLen (s.take k) ∧ start.character ≤ k) →
    ∀ r ∈ makeLinesLoop (byteLen s - 1) rest (byteLen (s.take k)) k start next,
      r.start.byte ≤ r.stop.byte ∧ r.start.character ≤ r.stop.character := by
  intro rest
  induction rest with
  | nil => intro k start next hdrop hpre r hr; simp [makeLinesLoop] at hr
  | cons ch rest' ih =>
    intro k start next hdrop hpre r hr
    have hdrop' : s.drop (k + 1) = rest' := drop_succ_of_drop_cons s k ch rest' hdrop
    have hb' : byteLen (s.take (k + 1)) = byteLen (s.take k) + ch.utf8Size :=
      byteLen_take_succ s k ch rest' hdrop
    have hpos : 0 < ch.utf8Size := Char.utf8Size_pos ch
    have hstart' :
        (if next = true then Index.mk (byteLen (s.take k)) k else start).byte
            ≤ byteLen (s.take k) ∧
        (if next = true then Index.mk (byteLen (s.take k)) k else start).character ≤ k := by
      cases next with
      | true => simp
      | false => simpa using hpre rfl
    simp only [makeLinesLoop] at hr
    by_cases hcl : ch = '\n' ∨ k = byteLen s - 1
    · rw [if_pos hcl] at hr
      rcases List.mem_cons.mp hr with hr1 | hr2
      · subst hr1
        exact hstart'
      · rw [← hb'] at hr2
        refine ih (k + 1) _ true hdrop' ?_ r hr2
        intro hf
        exact Bool.noConfusion hf
    · rw [if_neg hcl, ← hb'] at hr
      refine ih (k + 1) _ false hdrop' ?_ r hr
      intro hf
      constructor
      · omega
      · omega

/-- Chained contiguous well-formed spans are strictly ordered against every
later span. -/
theorem spanLT_head :
    ∀ (l : List Range) (r1 : Range), List.Chain' contig (r1 :: l) →
    (∀ r ∈ r1 :: l, r.start.byte ≤ r.stop.byte ∧ r.start.character ≤ r.stop.character) →
    ∀ r2 ∈ l, spanLT r1 r2 := by
  intro l
  induction l with
  | nil => intro r1 hch hwf r2 hr2; simp at hr2
  | cons rm l' ih =>
    intro r1 hch hwf r2 hr2
    have hc1 : contig r1 rm := (List.chain'_cons.mp hch).1
    have hch' : List.Chain' contig (rm :: l') := (List.chain'_cons.mp hch).2
    rcases List.mem_cons.mp hr2 with hr2 | hr2
    · subst hr2
      obtain ⟨hc, hd⟩ := hc1
      exact ⟨by omega, by omega⟩
    · have hm := ih rm hch' (fun r hr => hwf r (List.mem_cons_of_mem r1 hr)) r2 hr2
      have hwm := hwf rm (List.mem_cons_of_mem r1 (List.mem_cons_self rm l'))
      obtain ⟨ha, hb⟩ := hm
      obtain ⟨hc, hd⟩ := hc1
      obtain ⟨he, hf⟩ := hwm
      exact ⟨by omega, by omega⟩

/-- Chained contiguous well-formed spans are pairwise strictly ordered. -/
theorem pairwise_spanLT_of_chain :
    ∀ (l : List Range), List.Chain' contig l →
    (∀ r ∈ l, r.start.byte ≤ r.stop.byte ∧ r.start.character ≤ r.stop.character) →
    List.Pairwise spanLT l := by
  intro l
  induction l with
  | nil => intro hch hwf; exact List.Pairwise.nil
  | cons r1 l' ih =>
    intro hch hwf
    refine List.Pairwise.cons ?_ ?_
    · exact spanLT_head l' r1 hch hwf
    · exact ih (List.chain'_cons'.mp hch).2 (fun r hr => hwf r (List.mem_cons_of_mem r1 hr))

/-- The spans of `make_lines` form a contiguous chain. -/
theorem make_lines_chain (s : List Char) : List.Chain' contig (make_lines s) := by
  unfold make_lines
  by_cases hs : s.isEmpty
  · rw [if_pos hs]; simp
  · rw [if_neg hs]
    have h0 : byteLen (s.take 0) = 0 := by simp [byteLen]
    have := chain_loop s s 0 (Index.mk 0 0) false (by simp)
    rw [h0] at this
    exact this

/-- Every span of `make_lines` is well formed. -/
theorem make_lines_within (s : List Char) :
    ∀ r ∈ make_lines s,
      r.start.byte ≤ r.stop.byte ∧ r.start.character ≤ r.stop.character := by
  unfold make_lines
  by_cases hs : s.isEmpty
  · rw [if_pos hs]; intro r hr; simp at hr
  · rw [if_neg hs]
    have h0 : byteLen (s.take 0) = 0 := by simp [byteLen]
    have := within_loop s s 0 (Index.mk 0 0) false (by simp) (by intro hf; simp)
    rw [h0] at this
    exact this

/-- The spans of `make_lines` are pairwise strictly ordered in both coordinate
systems. -/
theorem make_lines_pairwise (s : List Char) : List.Pairwise spanLT (make_lines s) :=
  pairwise_spanLT_of_chain (make_lines s) (make_lines_chain s) (make_lines_within s)

/-- When the scanned suffix ends in a newline, the loop closes exactly one span
per newline: the end-of-text test never fires on a non-newline character,
because that would require the suffix to end right there. -/
theorem count_loop (s : List Char) :
    ∀ (rest : List Char) (k : Nat) (start : Index) (next : Bool),
    s.drop k = rest →
    (rest ≠ [] → rest.getLast? = some '\n') →
    (makeLinesLoop (byteLen s - 1) rest (byteLen (s.take k)) k start next).length
      = rest.count '\n' := by
  intro rest
  induction rest with
  | nil => intro k start next hdrop hlast; simp [makeLinesLoop]
  | cons ch rest' ih =>
    intro k start next hdrop hlast
    have hdrop' : s.drop (k + 1) = rest' := drop_succ_of_drop_cons s k ch rest' hdrop
    have hb' : byteLen (s.take (k + 1)) = byteLen (s.take k) + ch.utf8Size :=
      byteLen_take_succ s k ch rest' hdrop
    cases rest' with
    | nil =>
      have hch : ch = '\n' := by
        have := hlast (by simp)
        simpa using this
      subst hch
      rw [makeLinesLoop_cons, if_pos (Or.inl rfl)]
      simp [makeLinesLoop, List.count_cons]
    | cons ch2 rest'' =>
      have hlast' : ch2 :: rest'' ≠ [] → (ch2 :: rest'').getLast? = some '\n' := by
        intro hne
        have := hlast (by simp)
        rwa [List.getLast?_cons_cons] at this
      by_cases hch : ch = '\n'
      · subst hch
        rw [makeLinesLoop_cons, if_pos (Or.inl rfl), List.length_cons, ← hb',
          ih (k + 1) _ true hdrop' hlast']
        simp [List.count_cons]
      · have hend : ¬ k = byteLen s - 1 := by
          intro hk
          obtain ⟨h1, h2⟩ := close_at_end s k ch (ch2 :: rest'') hdrop hk
          exact List.noConfusion h2
        have hcl : ¬ (ch = '\n' ∨ k = byteLen s - 1) := by
          intro hor; rcases hor with h | h
          · exact hch h
          · exact hend h
        rw [makeLinesLoop_cons, if_neg hcl, ← hb', ih (k + 1) _ false hdrop' hlast']
        simp [List.count_cons, hch]

/-- For a text ending in a newline, the scan yields exactly one line per
newline: no extra trailing empty-line span beyond that final newline. -/
theorem make_lines_length_of_last_newline (s : List Char) (h : s.getLast? = some '\n') :
    (make_lines s).length = s.count '\n' := by
  have hne : s ≠ [] := by
    intro he; subst he; exact Option.noConfusion h
  unfold make_lines
  rw [if_neg (by simpa using hne)]
  have h0 : byteLen (s.take 0) = 0 := by simp [byteLen]
  have := count_loop s s 0 (Index.mk 0 0) false (by simp) (fun _ => h)
  rw [h0] at this
  exact this

/-- Positional coherence of the spans: each span's byte coordinates are the
byte lengths of the character prefixes at its character coordinates, and each
span ends at a one-byte character of the text. -/
theorem coherent_loop (s : List Char) :
    ∀ (rest : List Char) (k : Nat) (start : Index) (next : Bool),
    s.drop k = rest →
    (next = false → start.byte = byteLen (s.take start.character) ∧ start.character ≤ k) →
    ∀ r ∈ makeLinesLoop (byteLen s - 1) rest (byteLen (s.take k)) k start next,
      r.start.byte = byteLen (s.take r.start.character) ∧
      r.stop.byte = byteLen (s.take r.stop.character) ∧
      r.start.character ≤ r.stop.character ∧
      ∃ ch2 rest2, s.drop r.stop.character = ch2 :: rest2 ∧ ch2.utf8Size = 1 := by
  intro rest
  induction rest with
  | nil => intro k start next hdrop hpre r hr; simp [makeLinesLoop] at hr
  | cons ch rest' ih =>
    intro k start next hdrop hpre r hr
    have hdrop' : s.drop (k + 1) = rest' := drop_succ_of_drop_cons s k ch rest' hdrop
    have hb' : byteLen (s.take (k + 1)) = byteLen (s.take k) + ch.utf8Size :=
      byteLen_take_succ s k ch rest' hdrop
    have hstart' :
        (if next = true then Index.mk (byteLen (s.take k)) k else start).byte
          = byteLen (s.take
              (if next = true then Index.mk (byteLen (s.take k)) k else start).character) ∧
        (if next = true then Index.mk (byteLen (s.take k)) k else start).character ≤ k := by
      cases next with
      | true => simp
      | false => simpa using hpre rfl
    simp only [makeLinesLoop] at hr
    by_cases hcl : ch = '\n' ∨ k = byteLen s - 1
    · rw [if_pos hcl] at hr
      have hsize : ch.utf8Size = 1 := by
        rcases hcl with hnl | hend
        · subst hnl; decide
        · exact (close_at_end s k ch rest' hdrop hend).1
      rcases List.mem_cons.mp hr with hr1 | hr2
      · subst hr1
        refine ⟨hstart'.1, rfl, hstart'.2, ch, rest', hdrop, hsize⟩
      · rw [← hb'] at hr2
        refine ih (k + 1) _ true hdrop' ?_ r hr2
        intro hf
        exact Bool.noConfusion hf
    · rw [if_neg hcl, ← hb'] at hr
      refine ih (k + 1) _ false hdrop' ?_ r hr
      intro hf
      exact ⟨hstart'.1, by omega⟩

/-- Positional coherence at the level of `make_lines`. -/
theorem make_lines_coherent (s : List Char) :
    ∀ r ∈ make_lines s,
      r.start.byte = byteLen (s.take r.start.character) ∧
      r.stop.byte = byteLen (s.take r.stop.character) ∧
      r.start.character ≤ r.stop.character ∧
      ∃ ch2 rest2, s.drop r.stop.character = ch2 :: rest2 ∧ ch2.utf8Size = 1 := by
  unfold make_lines
  by_cases hs : s.isEmpty
  · rw [if_pos hs]; intro r hr; simp at hr
  · rw [if_neg hs]
    have h0 : byteLen (s.take 0) = 0 := by simp [byteLen]
    have := coherent_loop s s 0 (Index.mk 0 0) false (by simp)
      (by intro hf; simp [byteLen])
    rw [h0] at this
    exact this

theorem dropBytes_byteLen (p q : List Char) : dropBytes (p ++ q) (byteLen p) = some q := by
  induction p with
  | nil => simp [byteLen_nil, dropBytes]
  | cons ch p' ih =>
    have hpos : 0 < ch.utf8Size := Char.utf8Size_pos ch
    obtain ⟨m, hm⟩ : ∃ m, ch.utf8Size + byteLen p' = m + 1 :=
      ⟨ch.utf8Size + byteLen p' - 1, by omega⟩
    rw [byteLen_cons, hm, List.cons_append]
    simp only [dropBytes]
    rw [if_pos (by omega)]
    have hsub : m + 1 - ch.utf8Size = byteLen p' := by omega
    rw [hsub]
    exact ih

theorem takeBytes_byteLen (p q : List Char) : takeBytes (p ++ q) (byteLen p) = some p := by
  induction p with
  | nil => simp [byteLen_nil, takeBytes]
  | cons ch p' ih =>
    have hpos : 0 < ch.utf8Size := Char.utf8Size_pos ch
    obtain ⟨m, hm⟩ : ∃ m, ch.utf8Size + byteLen p' = m + 1 :=
      ⟨ch.utf8Size + byteLen p' - 1, by omega⟩
    rw [byteLen_cons, hm, List.cons_append]
    simp only [takeBytes]
    rw [if_pos (by omega)]
    have hsub : m + 1 - ch.utf8Size = byteLen p' := by omega
    rw [hsub, ih]
    rfl

/-- Slicing a text along character-boundary byte offsets succeeds and returns
the enclosed characters. -/
theorem sliceBytes_decomp (p m q : List Char) :
    sliceBytes ((p ++ m) ++ q) (byteLen p) (byteLen p + byteLen m) = some m := by
  unfold sliceBytes
  rw [if_pos (Nat.le_add_right _ _), List.append_assoc, dropBytes_byteLen]
  have hsub : byteLen p + byteLen m - byteLen p = byteLen m := by omega
  simp only [Option.some_bind]
  rw [hsub, takeBytes_byteLen]

/-- Slicing between byte offsets that are given as byte lengths of a
decomposition of the text succeeds. -/
theorem sliceBytes_decomp' (s p m q : List Char) (a b : Nat)
    (hs : s = (p ++ m) ++ q) (ha : a = byteLen p) (hb : b = byteLen p + byteLen m) :
    sliceBytes s a b = some m := by
  subst hs; subst ha; subst hb
  exact sliceBytes_decomp p m q

/-- C1: for the `IndexedString` built from the empty text, `lines()` is `0`
and `byte_range_for_line`, `character_range_for_line` and `line_str` are
not-found for every line; but `line_for_byte` and `line_for_character` panic
(the value `none` of the outer `Option`) for every offset, because
`inner_line_for` unwraps `self.lines.get(0)` on the empty span vector, instead
of returning `None` as the claim states. -/
theorem c1_empty_text_queries :
    (fromStr []).numLines = 0 ∧
    (∀ n, line_for_byte (fromStr []) n = none) ∧
    (∀ n, line_for_character (fromStr []) n = none) ∧
    (∀ l, byte_range_for_line (fromStr []) l = none) ∧
    (∀ l, character_range_for_line (fromStr []) l = none) ∧
    (∀ l, line_str (fromStr []) l = some none) := by
  refine ⟨rfl, fun n => rfl, fun n => rfl, fun l => ?_, fun l => ?_, fun l => ?_⟩
  · simp [byte_range_for_line, fromStr, make_lines]
  · simp [character_range_for_line, fromStr, make_lines]
  · simp [line_str, byte_range_for_line, fromStr, make_lines]

/-- C2: for the non-empty text `"dd"` the last span ends at byte (and
character) `1`, and the one-past-the-end query at offset `2 = len("dd")`
panics (outer `none`): the bisection recurses rightward to the empty interval
at index `lines.len()` and unwraps `self.lines.get(lines.len()) = None`,
instead of returning `None` as the claim states. -/
theorem c2_beyond_end_query :
    byteLen (String.toList "dd") = 2 ∧
    byte_range_for_line (fromStr (String.toList "dd")) 0 = some (0, 1) ∧
    character_range_for_line (fromStr (String.toList "dd")) 0 = some (0, 1) ∧
    (fromStr (String.toList "dd")).numLines = 1 ∧
    line_for_byte (fromStr (String.toList "dd")) 2 = none ∧
    line_for_character (fromStr (String.toList "dd")) 2 = none := by decide

/-- C3: the partition property fails on the one-character multi-byte text
`"é"` (`U+00E9`, two UTF-8 bytes): `make_lines` compares the character
ordinal against `s.len() - 1`, a byte count, so the final line of a multi-byte
text without a trailing newline is never closed; no line is produced and the
concatenation of all line texts is empty rather than the source text. -/
theorem c3_partition_fails :
    linesConcat (fromStr [Char.ofNat 233]) = [] ∧
    linesConcat (fromStr [Char.ofNat 233]) ≠ [Char.ofNat 233] := by decide

/-- C4: the claimed invariant that a non-empty text yields at least one line
fails on the multi-byte text `"é"`: the end-of-text test `c_i == end` compares
the character ordinal `0` with the byte count `2 - 1 = 1` and never fires, so
the span vector stays empty. -/
theorem c4_nonempty_no_lines :
    ([Char.ofNat 233] : List Char) ≠ [] ∧
    make_lines [Char.ofNat 233] = [] ∧
    (fromStr [Char.ofNat 233]).numLines = 0 := by decide

/-- C5: the coverage property fails on the multi-byte text `"é"`: byte offset
`0` is in range (`byteLen = 2`), yet the span vector is empty, and the lookup
panics (outer `none`) by unwrapping `self.lines.get(0)` instead of returning a
line containing the offset. -/
theorem c5_coverage_fails :
    0 < byteLen [Char.ofNat 233] ∧
    line_for_byte (fromStr [Char.ofNat 233]) 0 = none := by decide

/-- C6: for every text and every pair of line numbers `i < j < lines()`, the
spans are strictly ordered in both coordinate systems, and consecutive spans
are contiguous: the later span starts one byte and one character after the
earlier one ends (the position of the code point immediately following the
terminating one-byte newline). -/
theorem c6_spans_ordered_contiguous (s : List Char) (i j : Nat) (hij : i < j)
    (hj : j < (fromStr s).numLines) :
    ∃ bi bj ci cj,
      byte_range_for_line (fromStr s) i = some bi ∧
      byte_range_for_line (fromStr s) j = some bj ∧
      character_range_for_line (fromStr s) i = some ci ∧
      character_range_for_line (fromStr s) j = some cj ∧
      bi.2 < bj.1 ∧ ci.2 < cj.1 ∧
      (j = i + 1 → bj.1 = bi.2 + 1 ∧ cj.1 = ci.2 + 1) := by
  have hj' : j < (make_lines s).length := hj
  have hi : i < (make_lines s).length := by omega
  have hgi : (make_lines s)[i]? = some ((make_lines s)[i]) := List.getElem?_eq_getElem hi
  have hgj : (make_lines s)[j]? = some ((make_lines s)[j]) := List.getElem?_eq_getElem hj'
  refine ⟨Range.bytes ((make_lines s)[i]), Range.bytes ((make_lines s)[j]),
    Range.characters ((make_lines s)[i]), Range.characters ((make_lines s)[j]),
    ?_, ?_, ?_, ?_, ?_, ?_, ?_⟩
  · show ((make_lines s)[i]?).map Range.bytes = _
    rw [hgi]
    rfl
  · show ((make_lines s)[j]?).map Range.bytes = _
    rw [hgj]
    rfl
  · show ((make_lines s)[i]?).map Range.characters = _
    rw [hgi]
    rfl
  · show ((make_lines s)[j]?).map Range.characters = _
    rw [hgj]
    rfl
  · have hp := make_lines_pairwise s
    rw [List.pairwise_iff_getElem] at hp
    exact (hp i j hi hj' hij).1
  · have hp := make_lines_pairwise s
    rw [List.pairwise_iff_getElem] at hp
    exact (hp i j hi hj' hij).2
  · intro hji
    subst hji
    have hc := make_lines_chain s
    rw [List.chain'_iff_get] at hc
    have hcc := hc i (by omega)
    simp only [List.get_eq_getElem] at hcc
    exact ⟨hcc.1, hcc.2⟩

/-- Witness for C6 at scenario 1, lines 0 and 1. -/
theorem c6_spans_ordered_contiguous_witness :
    ∃ bi bj ci cj,
      byte_range_for_line (fromStr (String.toList "aa\nbbb\ncccc\ndd")) 0 = some bi ∧
      byte_range_for_line (fromStr (String.toList "aa\nbbb\ncccc\ndd")) 1 = some bj ∧
      character_range_for_line (fromStr (String.toList "aa\nbbb\ncccc\ndd")) 0 = some ci ∧
      character_range_for_line (fromStr (String.toList "aa\nbbb\ncccc\ndd")) 1 = some cj ∧
      bi.2 < bj.1 ∧ ci.2 < cj.1 ∧
      (1 = 0 + 1 → bj.1 = bi.2 + 1 ∧ cj.1 = ci.2 + 1) :=
  c6_spans_ordered_contiguous (String.toList "aa\nbbb\ncccc\ndd") 0 1 (by decide) (by decide)

/-- C7: the documented scenario for the text `"aa\nbbb\ncccc\ndd"`: four
lines, offset-to-line lookups land on line 1, the byte span of line 1 is
`3..=6`, the character span of line 2 is `7..=11`, and the text of line 0 is
`"aa\n"`. The inner `some` layers record that no query panics. -/
theorem c7_scenario_example :
    (fromStr (String.toList "aa\nbbb\ncccc\ndd")).numLines = 4 ∧
    line_for_byte (fromStr (String.toList "aa\nbbb\ncccc\ndd")) 4 = some (some 1) ∧
    line_for_character (fromStr (String.toList "aa\nbbb\ncccc\ndd")) 5 = some (some 1) ∧
    byte_range_for_line (fromStr (String.toList "aa\nbbb\ncccc\ndd")) 1 = some (3, 6) ∧
    character_range_for_line (fromStr (String.toList "aa\nbbb\ncccc\ndd")) 2 = some (7, 11) ∧
    line_str (fromStr (String.toList "aa\nbbb\ncccc\ndd")) 0
      = some (some (String.toList "aa\n")) := by decide

/-- C8: for every text ending in a newline the scan produces exactly one line
per newline, so there is no extra trailing empty-line span; the scenario
`"\n\n"` yields two one-newline lines (an empty line comes only from
consecutive newlines), and `"dd"` yields a single line `"dd"`. -/
theorem c8_trailing_newline_policy (s : List Char) (h : s.getLast? = some '\n') :
    (make_lines s).length = s.count '\n' ∧
    (fromStr (String.toList "\n\n")).numLines = 2 ∧
    line_str (fromStr (String.toList "\n\n")) 0 = some (some (String.toList "\n")) ∧
    line_str (fromStr (String.toList "\n\n")) 1 = some (some (String.toList "\n")) ∧
    (fromStr (String.toList "dd")).numLines = 1 ∧
    line_str (fromStr (String.toList "dd")) 0 = some (some (String.toList "dd")) :=
  ⟨make_lines_length_of_last_newline s h, by decide, by decide, by decide, by decide,
    by decide⟩

/-- Witness for C8 at the text `"ab\n"`. -/
theorem c8_trailing_newline_policy_witness :
    (make_lines (String.toList "ab\n")).length = (String.toList "ab\n").count '\n' ∧
    (fromStr (String.toList "\n\n")).numLines = 2 ∧
    line_str (fromStr (String.toList "\n\n")) 0 = some (some (String.toList "\n")) ∧
    line_str (fromStr (String.toList "\n\n")) 1 = some (some (String.toList "\n")) ∧
    (fromStr (String.toList "dd")).numLines = 1 ∧
    line_str (fromStr (String.toList "dd")) 0 = some (some (String.toList "dd")) :=
  c8_trailing_newline_policy (String.toList "ab\n") (by decide)

/-- C9: building from a borrowed text and building by taking ownership of the
same text produce the same line-span sequence, and every query operation
returns the same result on both: the two `From` impls differ only in the `Cow`
variant stored, which every operation reads through uniformly. -/
theorem c9_borrowed_owned_equiv (s : List Char) (n l : Nat) :
    (fromStr s).lines = (fromString s).lines ∧
    (fromStr s).numLines = (fromString s).numLines ∧
    (fromStr s).as_str = (fromString s).as_str ∧
    line_for_byte (fromStr s) n = line_for_byte (fromString s) n ∧
    line_for_character (fromStr s) n = line_for_character (fromString s) n ∧
    byte_range_for_line (fromStr s) l = byte_range_for_line (fromString s) l ∧
    character_range_for_line (fromStr s) l = character_range_for_line (fromString s) l ∧
    line_str (fromStr s) l = line_str (fromString s) l :=
  ⟨rfl, rfl, rfl, rfl, rfl, rfl, rfl, rfl⟩

/-- C10: for every text and every line number below `lines()`, the stored byte
range begins and ends on character boundaries (each span ends at a one-byte
character), so `line_str` slices successfully and returns text without
panicking. -/
theorem c10_line_str_no_panic (s : List Char) (l : Nat) (h : l < (fromStr s).numLines) :
    ∃ ab, byte_range_for_line (fromStr s) l = some ab ∧
      IsBoundary s ab.1 ∧ IsBoundary s (ab.2 + 1) ∧
      ∃ t, line_str (fromStr s) l = some (some t) := by
  have hlen : l < (make_lines s).length := h
  have hget : (make_lines s)[l]? = some ((make_lines s)[l]) := List.getElem?_eq_getElem hlen
  have hmem : (make_lines s)[l] ∈ make_lines s := List.getElem_mem hlen
  obtain ⟨hs1, hs2, hk12, ch2, rest2, hdrop2, hsz⟩ := make_lines_coherent s _ hmem
  have hbr : byte_range_for_line (fromStr s) l
      = some (((make_lines s)[l]).start.byte, ((make_lines s)[l]).stop.byte) := by
    show ((make_lines s)[l]?).map Range.bytes = _
    rw [hget]
    rfl
  have hsucc : byteLen (s.take (((make_lines s)[l]).stop.character + 1))
      = ((make_lines s)[l]).stop.byte + 1 := by
    rw [byteLen_take_succ s _ ch2 rest2 hdrop2, hsz, ← hs2]
  have h1 : s.take (((make_lines s)[l]).stop.character + 1)
      = s.take (((make_lines s)[l]).start.character)
        ++ (s.drop (((make_lines s)[l]).start.character)).take
            (((make_lines s)[l]).stop.character + 1 - ((make_lines s)[l]).start.character) := by
    have he : ((make_lines s)[l]).start.character
        + (((make_lines s)[l]).stop.character + 1 - ((make_lines s)[l]).start.character)
        = ((make_lines s)[l]).stop.character + 1 := by omega
    conv_lhs => rw [← he, List.take_add]
  have hsplit : (s.take (((make_lines s)[l]).start.character)
        ++ (s.drop (((make_lines s)[l]).start.character)).take
            (((make_lines s)[l]).stop.character + 1 - ((make_lines s)[l]).start.character))
        ++ s.drop (((make_lines s)[l]).stop.character + 1) = s := by
    rw [← h1, List.take_append_drop]
  have heq2 : ((make_lines s)[l]).stop.byte + 1
      = byteLen (s.take (((make_lines s)[l]).start.character))
        + byteLen ((s.drop (((make_lines s)[l]).start.character)).take
            (((make_lines s)[l]).stop.character + 1 - ((make_lines s)[l]).start.character)) := by
    rw [← byteLen_append, ← h1, hsucc]
  have hslice : sliceBytes s (((make_lines s)[l]).start.byte)
      (((make_lines s)[l]).stop.byte + 1)
      = some ((s.drop (((make_lines s)[l]).start.character)).take
          (((make_lines s)[l]).stop.character + 1 - ((make_lines s)[l]).start.character)) :=
    sliceBytes_decomp' s _ _ _ _ _ hsplit.symm hs1 heq2
  have hline : line_str (fromStr s) l
      = (sliceBytes s (((make_lines s)[l]).start.byte)
          (((make_lines s)[l]).stop.byte + 1)).map (fun t => some t) := by
    unfold line_str
    rw [hbr]
    rfl
  refine ⟨(((make_lines s)[l]).start.byte, ((make_lines s)[l]).stop.byte), hbr,
    ⟨((make_lines s)[l]).start.character, hs1.symm⟩,
    ⟨((make_lines s)[l]).stop.character + 1, hsucc⟩, ?_, ?_⟩
  · exact (s.drop (((make_lines s)[l]).start.character)).take
      (((make_lines s)[l]).stop.character + 1 - ((make_lines s)[l]).start.character)
  · rw [hline, hslice]
    rfl

/-- Witness for C10 at the text `"a\nb"`, line 0. -/
theorem c10_line_str_no_panic_witness :
    ∃ ab, byte_range_for_line (fromStr (String.toList "a\nb")) 0 = some ab ∧
      IsBoundary (String.toList "a\nb") ab.1 ∧
      IsBoundary (String.toList "a\nb") (ab.2 + 1) ∧
      ∃ t, line_str (fromStr (String.toList "a\nb")) 0 = some (some t) :=
  c10_line_str_no_panic (String.toList "a\nb") 0 (by decide)

end Lineindex
